import Mathlib

/-!
Verification of the log3 state-reconstruction and re-execution engine.

Shallow embedding of the core logic of `src/lib/src/lib.rs`:
the source instrumentation patcher (`patch_source_unit`), the state
override applier (`apply_state_override`), the prestate applier
(`apply_pre_state`), the plain replay loop (`prepare_fork_state_plain`),
and the final dispatch and environment configuration of `simulate_tx`.

Machine integers (u64, U256, H256, H160) are modelled as `Nat`, with an
explicit `% 2 ^ 64` where 64-bit truncation or wrapping matters.  Hash
maps are modelled as association lists; the claims that depend on map
semantics carry explicit key-distinctness hypotheses, matching the
`HashMap` invariant.  External collaborators (the EVM executor, the RPC
provider, keccak hashing, the console-log decoder) are modelled as
opaque-value parameters of the functions that call them.
-/

namespace Log3

/-! ## Source instrumentation patcher

`patch_source_unit` applies the regex
`(\n[ \t]*)//([ \t]*console.log)` with replacement `$1$2` via
`Regex::replace_all`.  We embed the pattern directly: a match starts at a
newline, takes a maximal run of spaces and tabs, two slashes, another
maximal run of spaces and tabs, and the literal text `console.log`; the
replacement drops the two slashes.  `replace_all` scans left to right and
resumes after each match, which the recursion below reproduces.
-/

/-- Characters of the regex class `[ \t]`. -/
def isWs (c : Char) : Bool := c == ' ' || c == '\t'

/-- The literal text of an actual `console.log` call (with a real dot),
the text the patch regex is written for. -/
def clogChars : List Char := ['c', 'o', 'n', 's', 'o', 'l', 'e', '.', 'l', 'o', 'g']

/-- The `console.log` part of the patch regex.  Its dot is unescaped in
the source pattern, so it matches any character other than a newline:
the text accepted here is the seven literal characters `console`, one
arbitrary non-newline character, then the three literal characters
`log`. -/
def clogPat : List Char → Bool
  | c1 :: c2 :: c3 :: c4 :: c5 :: c6 :: c7 :: d :: c9 :: c10 :: c11 :: _ =>
    c1 == 'c' && c2 == 'o' && c3 == 'n' && c4 == 's' && c5 == 'o' && c6 == 'l' &&
    c7 == 'e' && d != '\n' && c9 == 'l' && c10 == 'o' && c11 == 'g'
  | _ => false

/-- One attempt of the regex body right after a newline: maximal `[ \t]*`
run, two slashes, maximal `[ \t]*` run, then the eleven characters of
`console.log` (dot matching any non-newline character).  On success,
returns the replacement text (the matched text with the slashes dropped,
carrying the eleven matched characters as they appear in the input) and
the rest of the input after the match. -/
def tryMatch (s : List Char) : Option (List Char × List Char) :=
  match s.dropWhile isWs with
  | a :: b :: r2 =>
    if a = '/' ∧ b = '/' ∧ clogPat (r2.dropWhile isWs) = true then
      some (s.takeWhile isWs ++ r2.takeWhile isWs ++ (r2.dropWhile isWs).take 11,
            (r2.dropWhile isWs).drop 11)
    else none
  | _ => none

/-- Fuelled scanner for `replace_all`: at each newline it attempts the
regex body on the remainder and, on success, emits the replacement and
resumes after the match.  The fuel is always instantiated with the input
length, which suffices because a match consumes at least 13 characters. -/
def patchGo : Nat → List Char → List Char
  | 0, _ => []
  | _ + 1, [] => []
  | n + 1, c :: rest =>
    if c = '\n' then
      match tryMatch rest with
      | some (r, t) => '\n' :: (r ++ patchGo n t)
      | none => '\n' :: patchGo n rest
    else c :: patchGo n rest

/-- The `replace_all` pass of `patch_source_unit`, on character lists. -/
def patchAux (s : List Char) : List Char := patchGo s.length s

/-- Embedding of `patch_source_unit` (src/lib/src/lib.rs, lines 147 to 152). -/
def patch_source_unit (s : String) : String := ⟨patchAux s.toList⟩

/-- Characters that are not a newline, as a Boolean predicate. -/
def notNl (c : Char) : Bool := !(c == '\n')

/-! ## Forked backend and state overrides

The foundry `Backend` is modelled by the account/storage view the code
manipulates: `accounts` is the basic account table read by `basic` and
written by `insert_account_info`; `storage` holds locally written slots;
`cleared` records accounts whose storage was replaced wholesale (marked
"newly created", so misses no longer fall through to the fork); `fork`
is the immutable forked storage underneath.  A storage read (`sload`)
prefers local slots, then reads zero for cleared accounts, then the fork.
Addresses, slots, values and hashes are `Nat`. -/

/-- Account record of the backend (revm `AccountInfo`). -/
structure AccountInfo where
  balance : Nat
  nonce : Nat
  codeHash : Nat
  code : Option (List Nat)
deriving DecidableEq

/-- Hash of the empty code (`KECCAK_EMPTY`). -/
def keccakEmpty : Nat := 0xc5d2460186f7233c927e7db2dcc703c0e500b653ca82273b7bfad8045d85a470

/-- The `AccountInfo::default()` value: zero balance, zero nonce,
empty-code hash, empty code. -/
def defaultInfo : AccountInfo := ⟨0, 0, keccakEmpty, some []⟩

/-- The forked execution backend. -/
structure Backend where
  accounts : Nat → Option AccountInfo
  storage : Nat → Nat → Option Nat
  cleared : Nat → Bool
  fork : Nat → Nat → Nat

/-- Backend basic-account lookup (`db.basic`). -/
def Backend.basic (db : Backend) (a : Nat) : Option AccountInfo := db.accounts a

/-- Backend account-info write (`db.insert_account_info`). -/
def Backend.insert_account_info (db : Backend) (a : Nat) (i : AccountInfo) : Backend :=
  { db with accounts := fun x => if x = a then some i else db.accounts x }

/-- First-match association-list lookup (model of a hash-map read). -/
def alook : List (Nat × Nat) → Nat → Option Nat
  | [], _ => none
  | (k, v) :: rest, s => if s = k then some v else alook rest s

/-- Wholesale storage replacement (`replace_account_storage`): the account
storage becomes exactly the given map and the account is marked as newly
created, so slots outside the map no longer read forked values. -/
def Backend.replace_account_storage (db : Backend) (a : Nat) (m : List (Nat × Nat)) :
    Backend :=
  { db with
    storage := fun x s => if x = a then alook m s else db.storage x s,
    cleared := fun x => if x = a then true else db.cleared x }

/-- Single-slot storage write (`insert_account_storage`). -/
def Backend.insert_account_storage (db : Backend) (a k v : Nat) : Backend :=
  { db with
    storage := fun x s =>
      if x = a then (if s = k then some v else db.storage x s) else db.storage x s }

/-- Storage read: local slot if present, else zero for a cleared account,
else the forked value. -/
def Backend.sload (db : Backend) (a s : Nat) : Nat :=
  match db.storage a s with
  | some v => v
  | none => if db.cleared a then 0 else db.fork a s

/-- The `AccountOverride` record of src/lib/src/lib.rs (lines 365 to 372). -/
structure AccountOverride where
  nonce : Option Nat := none
  code : Option (List Nat) := none
  balance : Option Nat := none
  state : Option (List (Nat × Nat)) := none
  state_diff : Option (List (Nat × Nat)) := none

/-- Database-level errors surfaced by the override applier. -/
inductive DbError where
  | conflictingOverride
deriving DecidableEq

/-- The account-info part of one override application: nonce, then code
(code hash recomputed through the hash function), then balance, each only
if present. -/
def overrideInfo (keccak : List Nat → Nat) (info0 : AccountInfo) (ov : AccountOverride) :
    AccountInfo :=
  let i1 := match ov.nonce with
    | some n => { info0 with nonce := n }
    | none => info0
  let i2 := match ov.code with
    | some c => { i1 with codeHash := keccak c, code := some c }
    | none => i1
  match ov.balance with
  | some b => { i2 with balance := b }
  | none => i2

/-- One loop iteration of `apply_state_override`: read the account, apply
the info overrides, persist the info, then apply exactly one of
state/state_diff — both present is the conflicting-override error,
returned after the info write but before any storage write. -/
def applyOne (keccak : List Nat → Nat) (db : Backend) (a : Nat) (ov : AccountOverride) :
    Backend × Option DbError :=
  let info := overrideInfo keccak ((db.basic a).getD defaultInfo) ov
  let db1 := db.insert_account_info a info
  match ov.state, ov.state_diff with
  | some _, some _ => (db1, some DbError.conflictingOverride)
  | none, none => (db1, none)
  | some st, none => (db1.replace_account_storage a st, none)
  | none, some sd =>
    (sd.foldl (fun d kv => d.insert_account_storage a kv.1 kv.2) db1, none)

/-- Embedding of `apply_state_override` (src/lib/src/lib.rs, lines 376 to
429).  The backend is mutated in place in the source, so the function
returns the backend reached when the loop ends or the first error is
returned, together with that error. -/
def apply_state_override (keccak : List Nat → Nat) (db : Backend) :
    List (Nat × AccountOverride) → Backend × Option DbError
  | [] => (db, none)
  | (a, ov) :: rest =>
    match applyOne keccak db a ov with
    | (d, some e) => (d, some e)
    | (d, none) => apply_state_override keccak d rest

/-! ## Prestate reconstruction

`apply_pre_state` takes the accounts of a prestate trace frame and writes
them onto the backend.  Each account's info is rebuilt from
`AccountInfo::default()` (not from the backend's forked info), and the
traced storage slots are written one by one through
`insert_account_storage` on the active fork database. -/

/-- One account of a prestate trace frame. -/
structure PreAccount where
  nonce : Option Nat := none
  code : Option (List Nat) := none
  balance : Option Nat := none
  storage : Option (List (Nat × Nat)) := none

/-- The account info `apply_pre_state` builds for a traced account:
starting from the default info, set nonce, code and balance when the
trace carries them.  The code field is set without recomputing the code
hash, exactly as in the source. -/
def preInfo (pa : PreAccount) : AccountInfo :=
  let i1 := match pa.nonce with
    | some n => { defaultInfo with nonce := n }
    | none => defaultInfo
  let i2 := match pa.code with
    | some c => { i1 with code := some c }
    | none => i1
  match pa.balance with
  | some b => { i2 with balance := b }
  | none => i2

/-- One loop iteration of `apply_pre_state`. -/
def applyPre1 (db : Backend) (a : Nat) (pa : PreAccount) : Backend :=
  let db1 := db.insert_account_info a (preInfo pa)
  match pa.storage with
  | some st => st.foldl (fun d kv => d.insert_account_storage a kv.1 kv.2) db1
  | none => db1

/-- Embedding of `apply_pre_state` (src/lib/src/lib.rs, lines 431 to 465). -/
def apply_pre_state (db : Backend) : List (Nat × PreAccount) → Backend
  | [] => db
  | (a, pa) :: rest => apply_pre_state (applyPre1 db a pa) rest

/-! ## Execution environment, replay and dispatch

The executor, its EVM and the RPC provider are external.  `simulate_tx`
and `prepare_fork_state_plain` interact with them through
`configure_tx_env` (a foundry helper that copies a transaction's fields
into the environment's transaction section), `commit_tx_with_env` (call
execution) and `deploy_with_env` (creation execution).  Replay is
modelled by the ordered list of executor invocations it performs, each
carrying the environment it was invoked with and the transaction it came
from; the executions themselves are oracles. -/

/-- A fetched transaction (the ethers `Transaction` fields the code uses).
`index` is the transaction index within its block; `toAddr` models the
`to` field, the optional recipient, absent for contract creations (`to`
is a reserved word here). -/
structure Tx where
  index : Nat
  sender : Nat
  toAddr : Option Nat
  gas : Nat
  gas_price : Option Nat
  max_priority_fee_per_gas : Option Nat
  max_fee_per_gas : Option Nat
  value : Nat
  input : List Nat
  nonce : Nat
deriving DecidableEq

/-- Block-level part of the revm environment. -/
structure BlockEnv where
  number : Nat
  timestamp : Nat
  coinbase : Nat
  difficulty : Nat
  prevrandao : Option Nat
  basefee : Nat
  gas_limit : Nat
deriving DecidableEq

/-- Transaction-level part of the revm environment. -/
structure TxEnv where
  caller : Nat
  gas_limit : Nat
  gas_price : Nat
  gas_priority_fee : Option Nat
  transact_to : Option Nat
  value : Nat
  data : List Nat
  nonce : Option Nat
deriving DecidableEq

/-- The revm execution environment. -/
structure Env where
  block : BlockEnv
  tx : TxEnv
deriving DecidableEq

/-- The block fields `configure_env_for_executor` reads, plus the block's
transactions used by the replay loop. -/
structure BlockData where
  timestamp : Nat
  author : Option Nat
  difficulty : Nat
  mix_hash : Option Nat
  gas_limit : Nat
  transactions : List Tx

/-- Size of the u64 value space; `as_u64` conversions and u64 arithmetic
wrap modulo this. -/
def u64size : Nat := 2 ^ 64

/-- Model of the external foundry helper `configure_tx_env`: overwrite
the environment's transaction section with the transaction's fields. -/
def configure_tx_env (env : Env) (tx : Tx) : Env :=
  { env with
    tx :=
      { caller := tx.sender
        gas_limit := tx.gas % u64size
        gas_price := tx.gas_price.getD 0
        gas_priority_fee := tx.max_priority_fee_per_gas
        transact_to := tx.toAddr
        value := tx.value
        data := tx.input
        nonce := some tx.nonce } }

/-- Embedding of `configure_env_for_executor` (src/lib/src/lib.rs, lines
343 to 363): copy block context into the environment, force the base fee
to 1 and scale the block gas limit by 2000 (in u64 arithmetic). -/
def configure_env_for_executor (env : Env) (txBlockNumber : Nat) (block : BlockData) :
    Env :=
  { env with
    block :=
      { number := txBlockNumber
        timestamp := block.timestamp
        coinbase := block.author.getD 0
        difficulty := block.difficulty
        prevrandao := block.mix_hash
        basefee := 1
        gas_limit := (block.gas_limit % u64size) * 2000 % u64size } }

/-- One recorded executor invocation: the environment it ran with and the
transaction the environment was configured from. -/
inductive ExecEvent where
  | call (env : Env) (tx : Tx)
  | create (env : Env) (tx : Tx)
deriving DecidableEq

/-- The transaction an executor invocation came from. -/
def ExecEvent.tx : ExecEvent → Tx
  | .call _ t => t
  | .create _ t => t

/-- Embedding of `prepare_fork_state_plain` (src/lib/src/lib.rs, lines
267 to 295) as the ordered list of executor invocations it performs: walk
the block's transactions in order, stop at the first one whose index
equals the target index, otherwise configure the environment from the
transaction (the environment is mutated in place, hence threaded) and
execute it as a call when it has a recipient, as a creation otherwise. -/
def prepare_fork_state_plain (env : Env) : List Tx → Nat → List ExecEvent
  | [], _ => []
  | t :: rest, txIndex =>
    if t.index = txIndex then []
    else
      (match t.toAddr with
        | some _ => ExecEvent.call (configure_tx_env env t) t
        | none => ExecEvent.create (configure_tx_env env t) t)
        :: prepare_fork_state_plain (configure_tx_env env t) rest txIndex

/-- Replay of a whole transaction list, with no stopping condition: the
reference the replay loop is compared against. -/
def replayAll (env : Env) : List Tx → List ExecEvent
  | [] => []
  | t :: rest =>
    (match t.toAddr with
      | some _ => ExecEvent.call (configure_tx_env env t) t
      | none => ExecEvent.create (configure_tx_env env t) t)
      :: replayAll (configure_tx_env env t) rest

/-- Sample values for the witnesses. -/
def sampleEnv : Env := ⟨⟨0, 0, 0, 0, none, 0, 0⟩, ⟨0, 0, 0, none, none, 0, [], none⟩⟩

/-- Sample transaction with a recipient (index 0). -/
def sampleCallTx : Tx := ⟨0, 10, some 20, 5, none, none, none, 7, [1], 3⟩

/-- Sample transaction without a recipient (index 1). -/
def sampleCreateTx : Tx := ⟨1, 11, none, 6, none, none, none, 8, [2], 4⟩

/-- The call-execution result shape (`RawCallResult`): only the emitted
logs are consumed downstream. -/
structure RawCallResult where
  logs : List Nat

/-- The creation-execution result shape (`DeployResult`): only the
emitted logs are consumed downstream. -/
structure DeployResult where
  logs : List Nat

/-- The fee relaxation `simulate_tx` performs on the working copy of the
target transaction: gas price, max priority fee and max fee per gas are
each forced to 1. -/
def relax_tx (tx : Tx) : Tx :=
  { tx with
    gas_price := some 1
    max_priority_fee_per_gas := some 1
    max_fee_per_gas := some 1 }

/-- The environment the final execution runs with: configured from the
relaxed working transaction, then the transaction gas limit is multiplied
by 2000 (u64 arithmetic). -/
def final_env (env : Env) (tx : Tx) : Env :=
  let env1 := configure_tx_env env (relax_tx tx)
  { env1 with tx := { env1.tx with gas_limit := env1.tx.gas_limit * 2000 % u64size } }

/-- Embedding of the final dispatch of `simulate_tx` (src/lib/src/lib.rs,
lines 217 to 264): relax the working transaction's fees, configure the
environment, scale the gas limit, then execute as a call when the
transaction has a recipient and as a creation otherwise; the decoded
result is computed from the emitted logs of whichever path ran. -/
def simulate_core (callExec : Env → RawCallResult) (deployExec : Env → DeployResult)
    (decode : List Nat → List Nat) (env : Env) (tx : Tx) : List Nat :=
  let txW := relax_tx tx
  let envF := final_env env tx
  decode (match txW.toAddr with
    | some _ => (callExec envF).logs
    | none => (deployExec envF).logs)

/-- Sample block for the C5 witness. -/
def sampleBlock : BlockData := ⟨100, some 9, 1, some 2, 30000000, []⟩

theorem clogPat_shape {e : List Char} (h : clogPat e = true) :
    ∃ d t, d ≠ '\n' ∧
      e = 'c' :: 'o' :: 'n' :: 's' :: 'o' :: 'l' :: 'e' :: d :: 'l' :: 'o' :: 'g' :: t := by
  rcases e with - | ⟨c1, - | ⟨c2, - | ⟨c3, - | ⟨c4, - | ⟨c5, - | ⟨c6, - | ⟨c7, - | ⟨c8,
    - | ⟨c9, - | ⟨c10, - | ⟨c11, e⟩⟩⟩⟩⟩⟩⟩⟩⟩⟩⟩ <;>
    simp only [clogPat, Bool.and_eq_true, beq_iff_eq, bne_iff_ne, and_assoc] at h
  all_goals try exact Bool.noConfusion h
  obtain ⟨rfl, rfl, rfl, rfl, rfl, rfl, rfl, hd, rfl, rfl, rfl⟩ := h
  exact ⟨c8, e, hd, rfl⟩

theorem clogPat_of_shape {d : Char} (t : List Char) (hd : d ≠ '\n') :
    clogPat ('c' :: 'o' :: 'n' :: 's' :: 'o' :: 'l' :: 'e' :: d :: 'l' :: 'o' :: 'g' :: t)
      = true := by
  simp [clogPat, bne_iff_ne, hd]

theorem clogPat_append_nl (e q : List Char) (hq : q = [] ∨ ∃ u, q = '\n' :: u) :
    clogPat (e ++ q) = clogPat e := by
  rcases hq with rfl | ⟨u, rfl⟩
  · rw [List.append_nil]
  · cases hcl : clogPat e
    · cases hcl2 : clogPat (e ++ '\n' :: u)
      · rfl
      · exfalso
        obtain ⟨d, t, hd, heq⟩ := clogPat_shape hcl2
        by_cases hlen : 11 ≤ e.length
        · have h11 : (e ++ '\n' :: u).take 11 = e.take 11 := by
            rw [List.take_append_eq_append_take, Nat.sub_eq_zero_of_le hlen,
              List.take_zero, List.append_nil]
          have hL : e.take 11
              = 'c' :: 'o' :: 'n' :: 's' :: 'o' :: 'l' :: 'e' :: d :: 'l' :: 'o' :: 'g'
                :: ([] : List Char) := by
            rw [← h11, heq]
            rfl
          have he2 : clogPat e = true := by
            conv_lhs => rw [← List.take_append_drop 11 e, hL]
            exact clogPat_of_shape _ hd
          simp [hcl] at he2
        · push_neg at hlen
          have h11 : (e ++ '\n' :: u).take 11 = e ++ ('\n' :: u).take (11 - e.length) := by
            rw [List.take_append_eq_append_take, List.take_of_length_le (le_of_lt hlen)]
          obtain ⟨m, hm⟩ : ∃ m, 11 - e.length = m + 1 := ⟨10 - e.length, by omega⟩
          have hLeq : e ++ '\n' :: u.take m
              = 'c' :: 'o' :: 'n' :: 's' :: 'o' :: 'l' :: 'e' :: d :: 'l' :: 'o' :: 'g'
                :: ([] : List Char) := by
            have h2 := congrArg (List.take 11) heq
            rw [h11, hm] at h2
            rw [show ('\n' :: u).take (m + 1) = '\n' :: u.take m from rfl] at h2
            rw [h2]
            rfl
          have hmem : ('\n' : Char)
              ∈ 'c' :: 'o' :: 'n' :: 's' :: 'o' :: 'l' :: 'e' :: d :: 'l' :: 'o' :: 'g'
                :: ([] : List Char) := by
            rw [← hLeq]
            exact List.mem_append_right _ (List.mem_cons_self _ _)
          simp only [List.mem_cons] at hmem
          rcases hmem with h | h | h | h | h | h | h | h | h | h | h | h
          all_goals first
            | exact hd h.symm
            | simp at h
    · obtain ⟨d, t, hd, rfl⟩ := clogPat_shape hcl
      show clogPat ('c' :: 'o' :: 'n' :: 's' :: 'o' :: 'l' :: 'e' :: d :: 'l' :: 'o' :: 'g'
        :: (t ++ '\n' :: u)) = true
      exact clogPat_of_shape _ hd

theorem length_dropWhile_le (p : Char → Bool) (l : List Char) :
    (l.dropWhile p).length ≤ l.length := by
  induction l with
  | nil => simp
  | cons a l ih =>
    by_cases h : p a
    · rw [List.dropWhile_cons_of_pos h]; exact Nat.le_succ_of_le ih
    · rw [List.dropWhile_cons_of_neg h]

theorem tryMatch_length {s r t : List Char} (h : tryMatch s = some (r, t)) :
    t.length + 13 ≤ s.length := by
  unfold tryMatch at h
  rcases hd : s.dropWhile isWs with - | ⟨a, - | ⟨b, r2⟩⟩ <;> rw [hd] at h <;> dsimp only at h
  · simp at h
  · simp at h
  · split at h
    · rename_i hc
      obtain ⟨-, -, hpat⟩ := hc
      obtain ⟨d, u, -, hu⟩ := clogPat_shape hpat
      simp only [Option.some.injEq, Prod.mk.injEq] at h
      obtain ⟨-, ht⟩ := h
      have h2 : (r2.dropWhile isWs).length = u.length + 11 := by
        rw [hu]
        simp
      have h3 : t.length = (r2.dropWhile isWs).length - 11 := by
        rw [← ht, List.length_drop]
      have h4 : r2.length + 2 ≤ s.length := by
        have h6 := length_dropWhile_le isWs s
        rw [hd] at h6
        simp only [List.length_cons] at h6
        omega
      have h5 : (r2.dropWhile isWs).length ≤ r2.length := length_dropWhile_le isWs r2
      omega
    · simp at h

theorem patchGo_stable :
    ∀ (n m : Nat) (s : List Char), s.length ≤ n → s.length ≤ m →
      patchGo n s = patchGo m s := by
  intro n
  induction n with
  | zero =>
    intro m s hn _
    have : s = [] := List.length_eq_zero.mp (Nat.le_zero.mp hn)
    subst this
    cases m <;> rfl
  | succ n ih =>
    intro m s hn hm
    cases s with
    | nil => cases m <;> rfl
    | cons c rest =>
      cases m with
      | zero => exact absurd hm (by simp)
      | succ m =>
        simp only [List.length_cons, Nat.succ_le_succ_iff] at hn hm
        show patchGo (n + 1) (c :: rest) = patchGo (m + 1) (c :: rest)
        unfold patchGo
        by_cases hc : c = '\n'
        · rw [if_pos hc, if_pos hc]
          rcases htm : tryMatch rest with - | ⟨r, t⟩ <;> dsimp only
          · rw [ih m rest hn hm]
          · have ht := tryMatch_length htm
            rw [ih m t (by omega) (by omega)]
        · rw [if_neg hc, if_neg hc, ih m rest hn hm]

theorem patchAux_nil : patchAux [] = [] := rfl

theorem patchAux_cons_ne {c : Char} (rest : List Char) (hc : c ≠ '\n') :
    patchAux (c :: rest) = c :: patchAux rest := by
  show patchGo (rest.length + 1) (c :: rest) = c :: patchAux rest
  unfold patchGo
  rw [if_neg hc]
  rfl

theorem patchAux_nl_none {rest : List Char} (h : tryMatch rest = none) :
    patchAux ('\n' :: rest) = '\n' :: patchAux rest := by
  show patchGo (rest.length + 1) ('\n' :: rest) = '\n' :: patchAux rest
  unfold patchGo
  rw [if_pos rfl, h]
  rfl

theorem patchAux_nl_some {rest r t : List Char} (h : tryMatch rest = some (r, t)) :
    patchAux ('\n' :: rest) = '\n' :: (r ++ patchAux t) := by
  show patchGo (rest.length + 1) ('\n' :: rest) = '\n' :: (r ++ patchAux t)
  unfold patchGo
  rw [if_pos rfl, h]
  dsimp only
  have ht := tryMatch_length h
  rw [patchGo_stable rest.length t.length t (by omega) (by omega)]
  rfl

theorem patchAux_append_nlFree {p : List Char} (s : List Char)
    (hp : ∀ c ∈ p, c ≠ '\n') :
    patchAux (p ++ s) = p ++ patchAux s := by
  induction p with
  | nil => rfl
  | cons c p ih =>
    have hc : c ≠ '\n' := hp c (by simp)
    rw [List.cons_append, patchAux_cons_ne _ hc, ih (fun d hd => hp d (by simp [hd])),
      List.cons_append]

theorem patchAux_nlFree {p : List Char} (hp : ∀ c ∈ p, c ≠ '\n') : patchAux p = p := by
  have h := patchAux_append_nlFree (p := p) [] hp
  simpa [patchAux_nil] using h

theorem notNl_iff {c : Char} : notNl c = true ↔ c ≠ '\n' := by simp [notNl]

theorem patchAux_takeWhile_notNl (s : List Char) :
    (patchAux s).takeWhile notNl = s.takeWhile notNl := by
  have H : ∀ (n : Nat) (s : List Char), s.length ≤ n →
      (patchAux s).takeWhile notNl = s.takeWhile notNl := by
    intro n
    induction n with
    | zero =>
      intro s hs
      have h0 : s = [] := List.length_eq_zero.mp (Nat.le_zero.mp hs)
      subst h0; rfl
    | succ n ih =>
      intro s hs
      cases s with
      | nil => rfl
      | cons c rest =>
        simp only [List.length_cons, Nat.succ_le_succ_iff] at hs
        by_cases hc : c = '\n'
        · subst hc
          have hnl : ¬ notNl '\n' = true := by decide
          rcases htm : tryMatch rest with - | ⟨r, t⟩
          · rw [patchAux_nl_none htm, List.takeWhile_cons_of_neg hnl,
              List.takeWhile_cons_of_neg hnl]
          · rw [patchAux_nl_some htm, List.takeWhile_cons_of_neg hnl,
              List.takeWhile_cons_of_neg hnl]
        · rw [patchAux_cons_ne _ hc]
          have hcn : notNl c = true := notNl_iff.mpr hc
          rw [List.takeWhile_cons_of_pos hcn, List.takeWhile_cons_of_pos hcn, ih rest hs]
  exact H s.length s le_rfl

theorem dropWhile_head_shape (s : List Char) :
    s.dropWhile notNl = [] ∨ ∃ u, s.dropWhile notNl = '\n' :: u := by
  induction s with
  | nil => exact Or.inl rfl
  | cons c rest ih =>
    by_cases hc : notNl c = true
    · rw [List.dropWhile_cons_of_pos hc]; exact ih
    · rw [List.dropWhile_cons_of_neg hc]
      have hcc : c = '\n' := by
        by_contra hn
        exact hc (notNl_iff.mpr hn)
      exact Or.inr ⟨rest, by rw [hcc]⟩

theorem dropWhile_isWs_append {p q : List Char}
    (hq : q = [] ∨ ∃ u, q = '\n' :: u) :
    (p ++ q).dropWhile isWs = p.dropWhile isWs ++ q := by
  rw [List.dropWhile_append]
  split
  · rename_i he
    have hpe : p.dropWhile isWs = [] := by
      cases hh : p.dropWhile isWs
      · rfl
      · rw [hh] at he; simp at he
    rw [hpe, List.nil_append]
    rcases hq with rfl | ⟨u, rfl⟩
    · rfl
    · rw [List.dropWhile_cons_of_neg (by decide)]
  · rfl

theorem tryMatch_eq_none_iff (s : List Char) :
    tryMatch s = none ↔
      ∀ a b r2, s.dropWhile isWs = a :: b :: r2 →
        ¬(a = '/' ∧ b = '/' ∧ clogPat (r2.dropWhile isWs) = true) := by
  unfold tryMatch
  rcases hd : s.dropWhile isWs with - | ⟨a, - | ⟨b, r2⟩⟩ <;> dsimp only
  · constructor
    · intro _ a b r2 heq
      simp at heq
    · intro _; rfl
  · constructor
    · intro _ x y r2 heq
      simp at heq
    · intro _; rfl
  · constructor
    · intro hnone x y r2x heq hcnd
      obtain ⟨rfl, rfl, rfl⟩ : a = x ∧ b = y ∧ r2 = r2x := by
        injection heq with h1 h2
        injection h2 with h2 h3
        exact ⟨h1, h2, h3⟩
      rw [if_pos hcnd] at hnone
      simp at hnone
    · intro hall
      rw [if_neg (hall a b r2 rfl)]

theorem clogChars_nlFree : ∀ c ∈ clogChars, c ≠ '\n' := by decide

theorem tryMatch_none_nlHead (s : List Char) :
    tryMatch s = none ↔ tryMatch (s.takeWhile notNl) = none := by
  have hs : s.takeWhile notNl ++ s.dropWhile notNl = s :=
    List.takeWhile_append_dropWhile notNl s
  have hq := dropWhile_head_shape s
  have hkey : s.dropWhile isWs
      = (s.takeWhile notNl).dropWhile isWs ++ s.dropWhile notNl := by
    conv_lhs => rw [← hs]
    exact dropWhile_isWs_append hq
  rw [tryMatch_eq_none_iff s, tryMatch_eq_none_iff (s.takeWhile notNl), hkey]
  rcases hd : (s.takeWhile notNl).dropWhile isWs with - | ⟨x, - | ⟨y, r⟩⟩
  · rw [List.nil_append]
    constructor
    · intro _ a b r2 heq
      simp at heq
    · intro _ a b r2 heq hcnd
      rcases hq with hq0 | ⟨u, hq0⟩
      · rw [hq0] at heq; simp at heq
      · rw [hq0] at heq
        injection heq with h1 hrest
        rw [← h1] at hcnd
        exact absurd hcnd.1 (by decide)
  · constructor
    · intro _ a b r2 heq
      simp at heq
    · intro _ a b r2 heq hcnd
      rcases hq with hq0 | ⟨u, hq0⟩
      · rw [hq0] at heq; simp at heq
      · rw [hq0] at heq
        injection heq with h1 h2
        injection h2 with h2 hrest
        rw [← h2] at hcnd
        exact absurd hcnd.2.1 (by decide)
  · have hC : clogPat ((r ++ s.dropWhile notNl).dropWhile isWs)
        = clogPat (r.dropWhile isWs) := by
      rw [dropWhile_isWs_append hq]
      exact clogPat_append_nl (r.dropWhile isWs) (s.dropWhile notNl) hq
    rw [List.cons_append, List.cons_append]
    constructor
    · intro hL a b r2 heq hcnd
      obtain ⟨rfl, rfl, rfl⟩ : x = a ∧ y = b ∧ r = r2 := by
        injection heq with h1 h2
        injection h2 with h2 h3
        exact ⟨h1, h2, h3⟩
      exact hL x y (r ++ s.dropWhile notNl) rfl ⟨hcnd.1, hcnd.2.1, by rw [hC]; exact hcnd.2.2⟩
    · intro hR a b r2 heq hcnd
      obtain ⟨rfl, rfl, rfl⟩ : x = a ∧ y = b ∧ r ++ s.dropWhile notNl = r2 := by
        injection heq with h1 h2
        injection h2 with h2 h3
        exact ⟨h1, h2, h3⟩
      exact hR x y r rfl ⟨hcnd.1, hcnd.2.1, by rw [← hC]; exact hcnd.2.2⟩

theorem tryMatch_patchAux_none {s : List Char} (h : tryMatch s = none) :
    tryMatch (patchAux s) = none := by
  rw [tryMatch_none_nlHead, patchAux_takeWhile_notNl, ← tryMatch_none_nlHead]
  exact h

theorem tryMatch_some_shape {s r t : List Char} (h : tryMatch s = some (r, t)) :
    ∃ w1 w2 m, r = w1 ++ w2 ++ ('c' :: m) ∧
      (∀ c ∈ w1, isWs c = true) ∧ (∀ c ∈ w2, isWs c = true) ∧
      ∀ c ∈ 'c' :: m, c ≠ '\n' := by
  unfold tryMatch at h
  rcases hd : s.dropWhile isWs with - | ⟨a, - | ⟨b, r2⟩⟩ <;> rw [hd] at h <;> dsimp only at h
  · simp at h
  · simp at h
  · split at h
    · rename_i hcnd
      obtain ⟨-, -, hpat⟩ := hcnd
      obtain ⟨d, u, hdnl, hu⟩ := clogPat_shape hpat
      simp only [Option.some.injEq, Prod.mk.injEq] at h
      obtain ⟨hr, -⟩ := h
      refine ⟨s.takeWhile isWs, r2.takeWhile isWs,
        'o' :: 'n' :: 's' :: 'o' :: 'l' :: 'e' :: d :: 'l' :: 'o' :: 'g' :: [], ?_,
        fun c hc => List.mem_takeWhile_imp hc,
        fun c hc => List.mem_takeWhile_imp hc, ?_⟩
      · rw [← hr, hu]
        rfl
      · intro c hc
        simp only [List.mem_cons] at hc
        rcases hc with rfl | rfl | rfl | rfl | rfl | rfl | rfl | rfl | rfl | rfl | rfl | hc
        all_goals first
          | exact hdnl
          | simp at hc
          | decide
    · simp at h

theorem ne_nl_of_isWs {c : Char} (h : isWs c = true) : c ≠ '\n' := by
  intro hc
  subst hc
  exact absurd h (by decide)

theorem tryMatch_ws_head_none {w1 w2 m x : List Char}
    (h1 : ∀ c ∈ w1, isWs c = true) (h2 : ∀ c ∈ w2, isWs c = true) :
    tryMatch ((w1 ++ w2 ++ ('c' :: m)) ++ x) = none := by
  rw [tryMatch_eq_none_iff]
  intro a b r2 heq hcnd
  have hws : ∀ c ∈ w1 ++ w2, isWs c = true := by
    intro c hc
    rcases List.mem_append.mp hc with h | h
    exacts [h1 c h, h2 c h]
  have hred : ((w1 ++ w2 ++ ('c' :: m)) ++ x).dropWhile isWs = 'c' :: (m ++ x) := by
    have hassoc : (w1 ++ w2 ++ ('c' :: m)) ++ x = (w1 ++ w2) ++ ('c' :: (m ++ x)) := by
      simp [List.append_assoc]
    rw [hassoc, List.dropWhile_append_of_pos hws,
      List.dropWhile_cons_of_neg (by decide)]
  rw [hred] at heq
  injection heq with hA hrest
  rw [← hA] at hcnd
  exact absurd hcnd.1 (by decide)

theorem patchAux_idem (s : List Char) : patchAux (patchAux s) = patchAux s := by
  have H : ∀ (n : Nat) (s : List Char), s.length ≤ n →
      patchAux (patchAux s) = patchAux s := by
    intro n
    induction n with
    | zero =>
      intro s hs
      have h0 : s = [] := List.length_eq_zero.mp (Nat.le_zero.mp hs)
      subst h0; rfl
    | succ n ih =>
      intro s hs
      cases s with
      | nil => rfl
      | cons c rest =>
        simp only [List.length_cons, Nat.succ_le_succ_iff] at hs
        by_cases hc : c = '\n'
        · subst hc
          rcases htm : tryMatch rest with - | ⟨r, t⟩
          · rw [patchAux_nl_none htm, patchAux_nl_none (tryMatch_patchAux_none htm),
              ih rest hs]
          · obtain ⟨w1, w2, m, rfl, h1, h2, hm⟩ := tryMatch_some_shape htm
            have hfree : ∀ c ∈ w1 ++ w2 ++ ('c' :: m), c ≠ '\n' := by
              intro d hd
              rcases List.mem_append.mp hd with hmm | hmm
              · rcases List.mem_append.mp hmm with hm2 | hm2
                · exact ne_nl_of_isWs (h1 d hm2)
                · exact ne_nl_of_isWs (h2 d hm2)
              · exact hm d hmm
            have hlen : t.length ≤ n := by
              have := tryMatch_length htm
              omega
            rw [patchAux_nl_some htm, patchAux_nl_none (tryMatch_ws_head_none h1 h2),
              patchAux_append_nlFree (patchAux t) hfree, ih t hlen]
        · rw [patchAux_cons_ne _ hc, patchAux_cons_ne _ hc, ih rest hs]
  exact H s.length s le_rfl

/-- C8: the Source Instrumentation Patcher is idempotent.  The uncommenting
pass of `patch_source_unit` produces no further change when applied to its
own output: applying the transformation twice yields the same patched text
as applying it once.  (Import and library injection live in
`patch_metadata_source`, outside the uncommenting step, matching the
claim's duplicate-import tolerance.) -/
theorem patch_source_unit_idem (s : String) :
    patch_source_unit (patch_source_unit s) = patch_source_unit s := by
  unfold patch_source_unit
  rw [show (⟨patchAux s.toList⟩ : String).toList = patchAux s.toList from rfl,
    patchAux_idem]

theorem tryMatch_comment_clog {w1 w2 t : List Char}
    (h1 : ∀ c ∈ w1, isWs c = true) (h2 : ∀ c ∈ w2, isWs c = true) :
    tryMatch (w1 ++ '/' :: '/' :: (w2 ++ (clogChars ++ t)))
      = some (w1 ++ w2 ++ clogChars, t) := by
  have hdw : (w1 ++ '/' :: '/' :: (w2 ++ (clogChars ++ t))).dropWhile isWs
      = '/' :: '/' :: (w2 ++ (clogChars ++ t)) := by
    rw [List.dropWhile_append_of_pos h1, List.dropWhile_cons_of_neg (by decide)]
  have hcl : (clogChars ++ t).dropWhile isWs = clogChars ++ t := by
    rw [show clogChars ++ t
        = 'c' :: (['o', 'n', 's', 'o', 'l', 'e', '.', 'l', 'o', 'g'] ++ t) from rfl,
      List.dropWhile_cons_of_neg (by decide)]
  have hcl2 : (clogChars ++ t).takeWhile isWs = [] := by
    rw [show clogChars ++ t
        = 'c' :: (['o', 'n', 's', 'o', 'l', 'e', '.', 'l', 'o', 'g'] ++ t) from rfl,
      List.takeWhile_cons_of_neg (by decide)]
  have hd2 : (w2 ++ (clogChars ++ t)).dropWhile isWs = clogChars ++ t := by
    rw [List.dropWhile_append_of_pos h2, hcl]
  have ht2 : (w2 ++ (clogChars ++ t)).takeWhile isWs = w2 := by
    rw [List.takeWhile_append_of_pos h2, hcl2, List.append_nil]
  have ht1 : (w1 ++ '/' :: '/' :: (w2 ++ (clogChars ++ t))).takeWhile isWs = w1 := by
    rw [List.takeWhile_append_of_pos h1, List.takeWhile_cons_of_neg (by decide),
      List.append_nil]
  have hpat : clogPat (clogChars ++ t) = true := by
    rw [show clogChars ++ t
        = 'c' :: 'o' :: 'n' :: 's' :: 'o' :: 'l' :: 'e' :: '.' :: 'l' :: 'o' :: 'g' :: t
        from rfl]
    exact clogPat_of_shape t (by decide)
  unfold tryMatch
  rw [hdw]
  dsimp only
  rw [if_pos ⟨rfl, rfl, by rw [hd2]; exact hpat⟩, ht1, ht2, hd2]
  rw [show (clogChars ++ t).take 11 = clogChars from rfl,
    show (clogChars ++ t).drop 11 = t from rfl]

/-- The unescaped dot of the patch regex matches any non-newline
character: a commented line whose dot position holds another character
(here `consoleXlog`) is uncommented as well. -/
theorem patch_dot_matches_any_char :
    patchAux ('\n' :: '/' :: '/' :: ['c', 'o', 'n', 's', 'o', 'l', 'e', 'X', 'l', 'o', 'g'])
      = '\n' :: ['c', 'o', 'n', 's', 'o', 'l', 'e', 'X', 'l', 'o', 'g'] := by
  decide

/-- C10: the uncommenting transformation of `patch_source_unit` only
matches a commented diagnostic call that is preceded by a newline.  A
commented `console.log` line at the very start of the source unit (no
preceding newline) is copied through unchanged, while the same line
occurring after a newline has its comment marker removed. -/
theorem patch_comment_newline_anchor {w1 w2 t : List Char}
    (h1 : ∀ c ∈ w1, isWs c = true) (h2 : ∀ c ∈ w2, isWs c = true) :
    patchAux (w1 ++ '/' :: '/' :: (w2 ++ (clogChars ++ t)))
      = w1 ++ '/' :: '/' :: (w2 ++ (clogChars ++ patchAux t)) ∧
    patchAux ('\n' :: (w1 ++ '/' :: '/' :: (w2 ++ (clogChars ++ t))))
      = '\n' :: ((w1 ++ w2 ++ clogChars) ++ patchAux t) := by
  constructor
  · have hfree : ∀ c ∈ w1 ++ '/' :: '/' :: (w2 ++ clogChars), c ≠ '\n' := by
      intro d hd
      rcases List.mem_append.mp hd with hm | hm
      · exact ne_nl_of_isWs (h1 d hm)
      · simp only [List.mem_cons, List.mem_append] at hm
        rcases hm with rfl | rfl | hm | hm
        · decide
        · decide
        · exact ne_nl_of_isWs (h2 d hm)
        · exact clogChars_nlFree d hm
    have heq1 : w1 ++ '/' :: '/' :: (w2 ++ (clogChars ++ t))
        = (w1 ++ '/' :: '/' :: (w2 ++ clogChars)) ++ t := by
      simp [List.append_assoc]
    have heq2 : w1 ++ '/' :: '/' :: (w2 ++ (clogChars ++ patchAux t))
        = (w1 ++ '/' :: '/' :: (w2 ++ clogChars)) ++ patchAux t := by
      simp [List.append_assoc]
    rw [heq1, heq2, patchAux_append_nlFree t hfree]
  · rw [patchAux_nl_some (tryMatch_comment_clog h1 h2)]

/-- Witness for C10 at a concrete input: the line `// console.log` (empty
leading whitespace run, one space between the comment marker and the call)
stays commented at the start of the unit and is uncommented after a
newline. -/
theorem patch_comment_newline_anchor_witness :
    patchAux ([] ++ '/' :: '/' :: ([' '] ++ (clogChars ++ [])))
      = [] ++ '/' :: '/' :: ([' '] ++ (clogChars ++ patchAux [])) ∧
    patchAux ('\n' :: ([] ++ '/' :: '/' :: ([' '] ++ (clogChars ++ []))))
      = '\n' :: (([] ++ [' '] ++ clogChars) ++ patchAux []) :=
  patch_comment_newline_anchor (by decide) (by decide)

theorem alook_not_mem {m : List (Nat × Nat)} {s : Nat} (h : s ∉ m.map Prod.fst) :
    alook m s = none := by
  induction m with
  | nil => rfl
  | cons kv rest ih =>
    simp only [List.map_cons, List.mem_cons] at h
    push_neg at h
    obtain ⟨h1, h2⟩ := h
    cases kv with
    | mk k v =>
      show (if s = k then some v else alook rest s) = none
      rw [if_neg h1]
      exact ih h2

theorem alook_mem_nodup {m : List (Nat × Nat)} {k v : Nat}
    (hn : (m.map Prod.fst).Nodup) (h : (k, v) ∈ m) : alook m k = some v := by
  induction m with
  | nil => cases h
  | cons kv rest ih =>
    simp only [List.map_cons, List.nodup_cons] at hn
    obtain ⟨hk, hn2⟩ := hn
    rcases List.mem_cons.mp h with rfl | hmem
    · show (if k = k then some v else alook rest k) = some v
      rw [if_pos rfl]
    · cases kv with
      | mk k0 v0 =>
        show (if k = k0 then some v0 else alook rest k) = some v
        have hne : k ≠ k0 := by
          intro heq
          subst heq
          exact hk (List.mem_map.mpr ⟨(k, v), hmem, rfl⟩)
        rw [if_neg hne]
        exact ih hn2 hmem

theorem foldl_ins_accounts (a : Nat) :
    ∀ (sd : List (Nat × Nat)) (db : Backend),
      (sd.foldl (fun d kv => d.insert_account_storage a kv.1 kv.2) db).accounts
        = db.accounts := by
  intro sd
  induction sd with
  | nil => intro db; rfl
  | cons kv rest ih => intro db; rw [List.foldl_cons, ih]; rfl

theorem foldl_ins_cleared (a : Nat) :
    ∀ (sd : List (Nat × Nat)) (db : Backend),
      (sd.foldl (fun d kv => d.insert_account_storage a kv.1 kv.2) db).cleared
        = db.cleared := by
  intro sd
  induction sd with
  | nil => intro db; rfl
  | cons kv rest ih => intro db; rw [List.foldl_cons, ih]; rfl

theorem foldl_ins_fork (a : Nat) :
    ∀ (sd : List (Nat × Nat)) (db : Backend),
      (sd.foldl (fun d kv => d.insert_account_storage a kv.1 kv.2) db).fork = db.fork := by
  intro sd
  induction sd with
  | nil => intro db; rfl
  | cons kv rest ih => intro db; rw [List.foldl_cons, ih]; rfl

theorem foldl_ins_storage_ne {a b : Nat} (hne : b ≠ a) :
    ∀ (sd : List (Nat × Nat)) (db : Backend) (s : Nat),
      (sd.foldl (fun d kv => d.insert_account_storage a kv.1 kv.2) db).storage b s
        = db.storage b s := by
  intro sd
  induction sd with
  | nil => intro db s; rfl
  | cons kv rest ih =>
    intro db s
    rw [List.foldl_cons, ih]
    show (if b = a then _ else db.storage b s) = db.storage b s
    rw [if_neg hne]

theorem foldl_ins_storage_not_mem (a : Nat) :
    ∀ (sd : List (Nat × Nat)) (db : Backend) (s : Nat), s ∉ sd.map Prod.fst →
      (sd.foldl (fun d kv => d.insert_account_storage a kv.1 kv.2) db).storage a s
        = db.storage a s := by
  intro sd
  induction sd with
  | nil => intro db s _; rfl
  | cons kv rest ih =>
    intro db s hs
    simp only [List.map_cons, List.mem_cons] at hs
    push_neg at hs
    obtain ⟨h1, h2⟩ := hs
    rw [List.foldl_cons, ih _ s h2]
    show (if a = a then (if s = kv.1 then some kv.2 else db.storage a s)
      else db.storage a s) = db.storage a s
    rw [if_pos rfl, if_neg h1]

theorem foldl_ins_storage_mem (a : Nat) :
    ∀ (sd : List (Nat × Nat)) (db : Backend) (k v : Nat),
      (sd.map Prod.fst).Nodup → (k, v) ∈ sd →
      (sd.foldl (fun d kv => d.insert_account_storage a kv.1 kv.2) db).storage a k
        = some v := by
  intro sd
  induction sd with
  | nil => intro db k v _ h; cases h
  | cons kv rest ih =>
    intro db k v hn hmem
    cases kv with
    | mk k0 v0 =>
      simp only [List.map_cons, List.nodup_cons] at hn
      obtain ⟨hk, hn2⟩ := hn
      rw [List.foldl_cons]
      rcases List.mem_cons.mp hmem with heq | hmem2
      · injection heq with hkk hvv
        subst hkk
        subst hvv
        rw [foldl_ins_storage_not_mem a rest _ k hk]
        show (if a = a then (if k = k then some v else _) else _) = some v
        rw [if_pos rfl, if_pos rfl]
      · exact ih _ k v hn2 hmem2

theorem applyOne_ok {keccak : List Nat → Nat} {db : Backend} {a : Nat}
    {ov : AccountOverride}
    (h : ¬(ov.state.isSome = true ∧ ov.state_diff.isSome = true)) :
    (applyOne keccak db a ov).2 = none := by
  rcases hs : ov.state with - | st <;> rcases hd : ov.state_diff with - | sd <;>
    simp [applyOne, hs, hd] at h ⊢

theorem applyOne_storage_ne {keccak : List Nat → Nat} {db : Backend} {a b : Nat}
    {ov : AccountOverride} (hne : b ≠ a) (s : Nat) :
    (applyOne keccak db a ov).1.storage b s = db.storage b s := by
  rcases hs : ov.state with - | st <;> rcases hd : ov.state_diff with - | sd <;>
    simp only [applyOne, hs, hd]
  · rfl
  · rw [foldl_ins_storage_ne hne]
    rfl
  · show (if b = a then _ else _) = db.storage b s
    rw [if_neg hne]
    rfl
  · rfl

theorem applyOne_cleared_ne {keccak : List Nat → Nat} {db : Backend} {a b : Nat}
    {ov : AccountOverride} (hne : b ≠ a) :
    (applyOne keccak db a ov).1.cleared b = db.cleared b := by
  rcases hs : ov.state with - | st <;> rcases hd : ov.state_diff with - | sd <;>
    simp only [applyOne, hs, hd]
  · rfl
  · rw [foldl_ins_cleared]
    rfl
  · show (if b = a then true else _) = db.cleared b
    rw [if_neg hne]
    rfl
  · rfl

theorem applyOne_accounts_ne {keccak : List Nat → Nat} {db : Backend} {a b : Nat}
    {ov : AccountOverride} (hne : b ≠ a) :
    (applyOne keccak db a ov).1.accounts b = db.accounts b := by
  rcases hs : ov.state with - | st <;> rcases hd : ov.state_diff with - | sd <;>
    simp only [applyOne, hs, hd] <;>
    first
    | (show (if b = a then _ else db.accounts b) = db.accounts b
       rw [if_neg hne])
    | (rw [foldl_ins_accounts]
       show (if b = a then _ else db.accounts b) = db.accounts b
       rw [if_neg hne])

theorem applyOne_fork {keccak : List Nat → Nat} {db : Backend} {a : Nat}
    {ov : AccountOverride} :
    (applyOne keccak db a ov).1.fork = db.fork := by
  rcases hs : ov.state with - | st <;> rcases hd : ov.state_diff with - | sd <;>
    simp only [applyOne, hs, hd]
  · rfl
  · rw [foldl_ins_fork]
    rfl
  · rfl
  · rfl

theorem sload_eq_of {d1 d2 : Backend} {a s : Nat}
    (h1 : d1.storage a s = d2.storage a s) (h2 : d1.cleared a = d2.cleared a)
    (h3 : d1.fork a s = d2.fork a s) : d1.sload a s = d2.sload a s := by
  unfold Backend.sload
  rw [h1, h2, h3]

theorem apply_frame (keccak : List Nat → Nat) (b : Nat) :
    ∀ (l : List (Nat × AccountOverride)) (db : Backend), (∀ p ∈ l, p.1 ≠ b) →
      (∀ s, (apply_state_override keccak db l).1.storage b s = db.storage b s) ∧
      (apply_state_override keccak db l).1.cleared b = db.cleared b ∧
      (apply_state_override keccak db l).1.accounts b = db.accounts b := by
  intro l
  induction l with
  | nil => intro db _; exact ⟨fun s => rfl, rfl, rfl⟩
  | cons p l ih =>
    intro db hk
    cases p with
    | mk a ov =>
      have hab : b ≠ a := fun h => (hk (a, ov) (by simp)) h.symm
      rcases happ : applyOne keccak db a ov with ⟨d, e⟩
      have hd1 : (applyOne keccak db a ov).1 = d := by rw [happ]
      cases e with
      | none =>
        have hres : apply_state_override keccak db ((a, ov) :: l)
            = apply_state_override keccak d l := by
          show (match applyOne keccak db a ov with
            | (d, some e) => (d, some e)
            | (d, none) => apply_state_override keccak d l)
            = apply_state_override keccak d l
          rw [happ]
        rw [hres]
        obtain ⟨ih1, ih2, ih3⟩ := ih d (fun q hq => hk q (by simp [hq]))
        refine ⟨fun s => ?_, ?_, ?_⟩
        · rw [ih1 s, ← hd1, applyOne_storage_ne hab]
        · rw [ih2, ← hd1, applyOne_cleared_ne hab]
        · rw [ih3, ← hd1, applyOne_accounts_ne hab]
      | some err =>
        have hres : apply_state_override keccak db ((a, ov) :: l) = (d, some err) := by
          show (match applyOne keccak db a ov with
            | (d, some e) => (d, some e)
            | (d, none) => apply_state_override keccak d l)
            = (d, some err)
          rw [happ]
        rw [hres]
        refine ⟨fun s => ?_, ?_, ?_⟩
        · rw [← hd1]; exact applyOne_storage_ne hab s
        · rw [← hd1]; exact applyOne_cleared_ne hab
        · rw [← hd1]; exact applyOne_accounts_ne hab

theorem apply_fork (keccak : List Nat → Nat) :
    ∀ (l : List (Nat × AccountOverride)) (db : Backend),
      (apply_state_override keccak db l).1.fork = db.fork := by
  intro l
  induction l with
  | nil => intro db; rfl
  | cons p l ih =>
    intro db
    cases p with
    | mk a ov =>
      rcases happ : applyOne keccak db a ov with ⟨d, e⟩
      have hd1 : (applyOne keccak db a ov).1 = d := by rw [happ]
      cases e with
      | none =>
        have hres : apply_state_override keccak db ((a, ov) :: l)
            = apply_state_override keccak d l := by
          show (match applyOne keccak db a ov with
            | (d, some e) => (d, some e)
            | (d, none) => apply_state_override keccak d l)
            = apply_state_override keccak d l
          rw [happ]
        rw [hres, ih d, ← hd1, applyOne_fork]
      | some err =>
        have hres : apply_state_override keccak db ((a, ov) :: l) = (d, some err) := by
          show (match applyOne keccak db a ov with
            | (d, some e) => (d, some e)
            | (d, none) => apply_state_override keccak d l)
            = (d, some err)
          rw [happ]
        rw [hres, ← hd1, applyOne_fork]

theorem applyOne_conflict {keccak : List Nat → Nat} {db : Backend} {a : Nat}
    {ov : AccountOverride}
    (hs : ov.state.isSome = true) (hd : ov.state_diff.isSome = true) :
    applyOne keccak db a ov
      = (db.insert_account_info a (overrideInfo keccak ((db.basic a).getD defaultInfo) ov),
         some DbError.conflictingOverride) := by
  obtain ⟨st, hst⟩ := Option.isSome_iff_exists.mp hs
  obtain ⟨sd, hsd⟩ := Option.isSome_iff_exists.mp hd
  simp [applyOne, hst, hsd]

theorem applyOne_diff {keccak : List Nat → Nat} {db : Backend} {a : Nat}
    {ov : AccountOverride} {sd : List (Nat × Nat)}
    (hs : ov.state = none) (hd : ov.state_diff = some sd) :
    applyOne keccak db a ov
      = (sd.foldl (fun d kv => d.insert_account_storage a kv.1 kv.2)
          (db.insert_account_info a (overrideInfo keccak ((db.basic a).getD defaultInfo) ov)),
         none) := by
  simp [applyOne, hs, hd]

theorem applyOne_replace {keccak : List Nat → Nat} {db : Backend} {a : Nat}
    {ov : AccountOverride} {st : List (Nat × Nat)}
    (hs : ov.state = some st) (hd : ov.state_diff = none) :
    applyOne keccak db a ov
      = ((db.insert_account_info a
            (overrideInfo keccak ((db.basic a).getD defaultInfo) ov)).replace_account_storage
          a st,
         none) := by
  simp [applyOne, hs, hd]

/-- Counterexample to C1 as stated: a single-account override set whose
account override carries both `state` and `state_diff` together with a
nonce override.  `apply_state_override` does return the dedicated
conflicting-override error, but the account's basic record has already
been rewritten (nonce 0 becomes 5) when the error is returned, so the
backend account state for the address is not left unchanged. -/
theorem apply_state_override_conflict_counterexample :
    (apply_state_override (fun _ => 0)
        ⟨fun x => if x = 1 then some ⟨0, 0, 0, none⟩ else none,
         fun _ _ => none, fun _ => false, fun _ _ => 0⟩
        [(1, ⟨some 5, none, none, some [], some []⟩)]).2
      = some DbError.conflictingOverride ∧
    (apply_state_override (fun _ => 0)
        ⟨fun x => if x = 1 then some ⟨0, 0, 0, none⟩ else none,
         fun _ _ => none, fun _ => false, fun _ _ => 0⟩
        [(1, ⟨some 5, none, none, some [], some []⟩)]).1.basic 1
      = some ⟨0, 5, 0, none⟩ ∧
    Backend.basic
        ⟨fun x => if x = 1 then some ⟨0, 0, 0, none⟩ else none,
         fun _ _ => none, fun _ => false, fun _ _ => 0⟩ 1
      = some ⟨0, 0, 0, none⟩ := by
  refine ⟨rfl, by decide, rfl⟩

/-- C1 (amended): for every override set in which an account override
carries both `state` and `state_diff`, `apply_state_override` returns the
dedicated conflicting-override error, and the storage of that account
(locally written slots, cleared mark, forked values, hence every storage
read) is left unchanged; the account-info part of the overrides (nonce,
code, code hash, balance), however, is persisted before the error is
returned. -/
theorem apply_state_override_conflict (keccak : List Nat → Nat) (db : Backend)
    (l1 l2 : List (Nat × AccountOverride)) (a : Nat) (ov : AccountOverride)
    (hk : ∀ p ∈ l1, p.1 ≠ a)
    (hs : ov.state.isSome = true) (hd : ov.state_diff.isSome = true) :
    (apply_state_override keccak db (l1 ++ (a, ov) :: l2)).2
      = some DbError.conflictingOverride ∧
    (∀ s, (apply_state_override keccak db (l1 ++ (a, ov) :: l2)).1.storage a s
      = db.storage a s) ∧
    (apply_state_override keccak db (l1 ++ (a, ov) :: l2)).1.cleared a = db.cleared a ∧
    ∀ s, Backend.sload (apply_state_override keccak db (l1 ++ (a, ov) :: l2)).1 a s
      = Backend.sload db a s := by
  induction l1 generalizing db with
  | nil =>
    rw [List.nil_append]
    have hres : apply_state_override keccak db ((a, ov) :: l2)
        = (db.insert_account_info a (overrideInfo keccak ((db.basic a).getD defaultInfo) ov),
           some DbError.conflictingOverride) := by
      show (match applyOne keccak db a ov with
        | (d, some e) => (d, some e)
        | (d, none) => apply_state_override keccak d l2)
        = _
      rw [applyOne_conflict hs hd]
    rw [hres]
    exact ⟨rfl, fun s => rfl, rfl, fun s => rfl⟩
  | cons p l1 ih =>
    cases p with
    | mk b pov =>
      have hba : a ≠ b := fun h => (hk (b, pov) (by simp)) h.symm
      rcases happ : applyOne keccak db b pov with ⟨d, e⟩
      have hd1 : (applyOne keccak db b pov).1 = d := by rw [happ]
      cases e with
      | none =>
        have hres : apply_state_override keccak db (((b, pov) :: l1) ++ (a, ov) :: l2)
            = apply_state_override keccak d (l1 ++ (a, ov) :: l2) := by
          show (match applyOne keccak db b pov with
            | (d, some e) => (d, some e)
            | (d, none) => apply_state_override keccak d (l1 ++ (a, ov) :: l2))
            = _
          rw [happ]
        obtain ⟨ih1, ih2, ih3, -⟩ := ih d (fun q hq => hk q (by simp [hq]))
        have hstor : ∀ s, d.storage a s = db.storage a s := by
          intro s; rw [← hd1]; exact applyOne_storage_ne hba s
        have hclr : d.cleared a = db.cleared a := by
          rw [← hd1]; exact applyOne_cleared_ne hba
        have hfrk : d.fork = db.fork := by rw [← hd1]; exact applyOne_fork
        rw [hres]
        refine ⟨ih1, fun s => by rw [ih2 s, hstor s], by rw [ih3, hclr], fun s => ?_⟩
        refine sload_eq_of (by rw [ih2 s, hstor s]) (by rw [ih3, hclr]) ?_
        rw [apply_fork keccak _ d, hfrk]
      | some err =>
        have hres : apply_state_override keccak db (((b, pov) :: l1) ++ (a, ov) :: l2)
            = (d, some err) := by
          show (match applyOne keccak db b pov with
            | (d, some e) => (d, some e)
            | (d, none) => apply_state_override keccak d (l1 ++ (a, ov) :: l2))
            = _
          rw [happ]
        have herr : err = DbError.conflictingOverride := by cases err; rfl
        have hstor : ∀ s, d.storage a s = db.storage a s := by
          intro s; rw [← hd1]; exact applyOne_storage_ne hba s
        have hclr : d.cleared a = db.cleared a := by
          rw [← hd1]; exact applyOne_cleared_ne hba
        have hfrk : d.fork = db.fork := by rw [← hd1]; exact applyOne_fork
        rw [hres, herr]
        exact ⟨rfl, hstor, hclr,
          fun s => sload_eq_of (hstor s) hclr (by rw [hfrk])⟩

/-- Witness for the amended C1 at a concrete input. -/
theorem apply_state_override_conflict_witness :
    (apply_state_override (fun _ => 0)
        ⟨fun _ => none, fun _ _ => none, fun _ => false, fun _ _ => 3⟩
        [(2, ⟨some 5, none, none, some [], some []⟩)]).2
      = some DbError.conflictingOverride ∧
    Backend.sload
        (apply_state_override (fun _ => 0)
          ⟨fun _ => none, fun _ _ => none, fun _ => false, fun _ _ => 3⟩
          [(2, ⟨some 5, none, none, some [], some []⟩)]).1 2 7
      = Backend.sload ⟨fun _ => none, fun _ _ => none, fun _ => false, fun _ _ => 3⟩ 2 7 := by
  have h := apply_state_override_conflict (fun _ => 0)
    ⟨fun _ => none, fun _ _ => none, fun _ => false, fun _ _ => 3⟩
    [] [] 2 ⟨some 5, none, none, some [], some []⟩ (by simp) rfl rfl
  exact ⟨h.1, h.2.2.2 7⟩

theorem sload_of_some {db : Backend} {a s v : Nat} (h : db.storage a s = some v) :
    db.sload a s = v := by
  unfold Backend.sload
  rw [h]

theorem sload_of_none_cleared {db : Backend} {a s : Nat}
    (h1 : db.storage a s = none) (h2 : db.cleared a = true) : db.sload a s = 0 := by
  unfold Backend.sload
  rw [h1, h2]
  rfl

/-- C2: storage semantics of `apply_state_override` for the account each
override targets.  With a `state_diff` override, slots not named in the
diff still read their pre-override value and named slots read the diff
value; with a `state` override, slots not named read zero (prior forked
storage is unreachable) and named slots read the map value.  Distinctness
hypotheses reflect the hash-map keys of the source; the overrides ahead
of the account must be conflict-free so that the account is reached. -/
theorem apply_state_override_slot_semantics (keccak : List Nat → Nat) (db : Backend)
    (l1 l2 : List (Nat × AccountOverride)) (a : Nat) (ov : AccountOverride)
    (hk : ∀ p ∈ l1 ++ l2, p.1 ≠ a)
    (h1 : ∀ p ∈ l1, ¬(p.2.state.isSome = true ∧ p.2.state_diff.isSome = true)) :
    (∀ sd, ov.state = none → ov.state_diff = some sd →
      (∀ s, s ∉ sd.map Prod.fst →
        Backend.sload (apply_state_override keccak db (l1 ++ (a, ov) :: l2)).1 a s
          = Backend.sload db a s) ∧
      ((sd.map Prod.fst).Nodup → ∀ k v, (k, v) ∈ sd →
        Backend.sload (apply_state_override keccak db (l1 ++ (a, ov) :: l2)).1 a k = v)) ∧
    (∀ st, ov.state = some st → ov.state_diff = none →
      (∀ s, s ∉ st.map Prod.fst →
        Backend.sload (apply_state_override keccak db (l1 ++ (a, ov) :: l2)).1 a s = 0) ∧
      ((st.map Prod.fst).Nodup → ∀ k v, (k, v) ∈ st →
        Backend.sload (apply_state_override keccak db (l1 ++ (a, ov) :: l2)).1 a k = v)) := by
  induction l1 generalizing db with
  | nil =>
    rw [List.nil_append]
    have hkl2 : ∀ p ∈ l2, p.1 ≠ a := fun q hq => hk q (by simpa using hq)
    constructor
    · intro sd hs hd
      have hres : apply_state_override keccak db ((a, ov) :: l2)
          = apply_state_override keccak
              (sd.foldl (fun d kv => d.insert_account_storage a kv.1 kv.2)
                (db.insert_account_info a
                  (overrideInfo keccak ((db.basic a).getD defaultInfo) ov))) l2 := by
        show (match applyOne keccak db a ov with
          | (d, some e) => (d, some e)
          | (d, none) => apply_state_override keccak d l2)
          = _
        rw [applyOne_diff hs hd]
      rw [hres]
      obtain ⟨f1, f2, -⟩ := apply_frame keccak a l2
        (sd.foldl (fun d kv => d.insert_account_storage a kv.1 kv.2)
          (db.insert_account_info a
            (overrideInfo keccak ((db.basic a).getD defaultInfo) ov))) hkl2
      have hfrk := apply_fork keccak l2
        (sd.foldl (fun d kv => d.insert_account_storage a kv.1 kv.2)
          (db.insert_account_info a
            (overrideInfo keccak ((db.basic a).getD defaultInfo) ov)))
      constructor
      · intro s hsm
        refine sload_eq_of ?_ ?_ ?_
        · rw [f1 s, foldl_ins_storage_not_mem a sd _ s hsm]
          rfl
        · rw [f2, foldl_ins_cleared]
          rfl
        · rw [hfrk, foldl_ins_fork]
          rfl
      · intro hn k v hm
        refine sload_of_some ?_
        rw [f1 k]
        exact foldl_ins_storage_mem a sd _ k v hn hm
    · intro st hs hd
      have hres : apply_state_override keccak db ((a, ov) :: l2)
          = apply_state_override keccak
              ((db.insert_account_info a
                  (overrideInfo keccak ((db.basic a).getD defaultInfo) ov)).replace_account_storage
                a st) l2 := by
        show (match applyOne keccak db a ov with
          | (d, some e) => (d, some e)
          | (d, none) => apply_state_override keccak d l2)
          = _
        rw [applyOne_replace hs hd]
      rw [hres]
      obtain ⟨f1, f2, -⟩ := apply_frame keccak a l2
        ((db.insert_account_info a
            (overrideInfo keccak ((db.basic a).getD defaultInfo) ov)).replace_account_storage
          a st) hkl2
      have hsto : ∀ s, ((db.insert_account_info a
          (overrideInfo keccak ((db.basic a).getD defaultInfo) ov)).replace_account_storage
            a st).storage a s = alook st s := by
        intro s
        show (if a = a then alook st s else _) = alook st s
        rw [if_pos rfl]
      have hclr : ((db.insert_account_info a
          (overrideInfo keccak ((db.basic a).getD defaultInfo) ov)).replace_account_storage
            a st).cleared a = true := by
        show (if a = a then true else _) = true
        rw [if_pos rfl]
      constructor
      · intro s hsm
        refine sload_of_none_cleared ?_ ?_
        · rw [f1 s, hsto s]
          exact alook_not_mem hsm
        · rw [f2, hclr]
      · intro hn k v hm
        refine sload_of_some ?_
        rw [f1 k, hsto k]
        exact alook_mem_nodup hn hm
  | cons p l1 ih =>
    cases p with
    | mk b pov =>
      have hba : b ≠ a := hk (b, pov) (by simp)
      have hok : (applyOne keccak db b pov).2 = none :=
        applyOne_ok (h1 (b, pov) (by simp))
      rcases happ : applyOne keccak db b pov with ⟨d, e⟩
      have he : e = none := by rw [happ] at hok; exact hok
      subst he
      have hd1 : (applyOne keccak db b pov).1 = d := by rw [happ]
      have hres : apply_state_override keccak db (((b, pov) :: l1) ++ (a, ov) :: l2)
          = apply_state_override keccak d (l1 ++ (a, ov) :: l2) := by
        show (match applyOne keccak db b pov with
          | (d, some e) => (d, some e)
          | (d, none) => apply_state_override keccak d (l1 ++ (a, ov) :: l2))
          = _
        rw [happ]
      have hkd : ∀ p ∈ l1 ++ l2, p.1 ≠ a := fun q hq => hk q (List.mem_cons_of_mem _ hq)
      have h1d : ∀ p ∈ l1, ¬(p.2.state.isSome = true ∧ p.2.state_diff.isSome = true) :=
        fun q hq => h1 q (List.mem_cons_of_mem _ hq)
      obtain ⟨ihd, ihr⟩ := ih d hkd h1d
      have hstep : ∀ s, Backend.sload d a s = Backend.sload db a s := by
        intro s
        refine sload_eq_of ?_ ?_ ?_
        · rw [← hd1]; exact applyOne_storage_ne hba.symm s
        · rw [← hd1]; exact applyOne_cleared_ne hba.symm
        · rw [← hd1, applyOne_fork]
      constructor
      · intro sd hs hd
        obtain ⟨u1, u2⟩ := ihd sd hs hd
        constructor
        · intro s hsm
          rw [hres, u1 s hsm, hstep s]
        · intro hn k v hm
          rw [hres]
          exact u2 hn k v hm
      · intro st hs hd
        obtain ⟨u1, u2⟩ := ihr st hs hd
        constructor
        · intro s hsm
          rw [hres]
          exact u1 s hsm
        · intro hn k v hm
          rw [hres]
          exact u2 hn k v hm

/-- Witness for C2 at concrete inputs, one per override kind: under a
`state_diff` override of slot 2, slot 5 still reads the forked value 3
and slot 2 reads 9; under a `state` override of slot 2, slot 5 reads 0
and slot 2 reads 9. -/
theorem apply_state_override_slot_semantics_witness :
    Backend.sload
        (apply_state_override (fun _ => 0)
          ⟨fun _ => none, fun _ _ => none, fun _ => false, fun _ _ => 3⟩
          [(1, ⟨none, none, none, none, some [(2, 9)]⟩)]).1 1 5 = 3 ∧
    Backend.sload
        (apply_state_override (fun _ => 0)
          ⟨fun _ => none, fun _ _ => none, fun _ => false, fun _ _ => 3⟩
          [(1, ⟨none, none, none, none, some [(2, 9)]⟩)]).1 1 2 = 9 ∧
    Backend.sload
        (apply_state_override (fun _ => 0)
          ⟨fun _ => none, fun _ _ => none, fun _ => false, fun _ _ => 3⟩
          [(1, ⟨none, none, none, some [(2, 9)], none⟩)]).1 1 5 = 0 ∧
    Backend.sload
        (apply_state_override (fun _ => 0)
          ⟨fun _ => none, fun _ _ => none, fun _ => false, fun _ _ => 3⟩
          [(1, ⟨none, none, none, some [(2, 9)], none⟩)]).1 1 2 = 9 := by
  have hd := apply_state_override_slot_semantics (fun _ => 0)
    ⟨fun _ => none, fun _ _ => none, fun _ => false, fun _ _ => 3⟩
    [] [] 1 ⟨none, none, none, none, some [(2, 9)]⟩ (by simp) (by simp)
  have hr := apply_state_override_slot_semantics (fun _ => 0)
    ⟨fun _ => none, fun _ _ => none, fun _ => false, fun _ _ => 3⟩
    [] [] 1 ⟨none, none, none, some [(2, 9)], none⟩ (by simp) (by simp)
  obtain ⟨u1, u2⟩ := hd.1 [(2, 9)] rfl rfl
  obtain ⟨v1, v2⟩ := hr.2 [(2, 9)] rfl rfl
  simp only [List.nil_append] at u1 u2 v1 v2
  refine ⟨?_, u2 (by decide) 2 9 (by decide), v1 5 (by decide),
    v2 (by decide) 2 9 (by decide)⟩
  rw [u1 5 (by decide)]
  rfl

theorem applyPre1_storage_ne {db : Backend} {a b : Nat} {pa : PreAccount}
    (hne : b ≠ a) (s : Nat) :
    (applyPre1 db a pa).storage b s = db.storage b s := by
  rcases hs : pa.storage with - | st <;> simp only [applyPre1, hs]
  · rfl
  · rw [foldl_ins_storage_ne hne]
    rfl

theorem applyPre1_cleared {db : Backend} {a : Nat} {pa : PreAccount} :
    (applyPre1 db a pa).cleared = db.cleared := by
  rcases hs : pa.storage with - | st <;> simp only [applyPre1, hs]
  · rfl
  · rw [foldl_ins_cleared]
    rfl

theorem applyPre1_fork {db : Backend} {a : Nat} {pa : PreAccount} :
    (applyPre1 db a pa).fork = db.fork := by
  rcases hs : pa.storage with - | st <;> simp only [applyPre1, hs]
  · rfl
  · rw [foldl_ins_fork]
    rfl

theorem applyPre1_accounts_ne {db : Backend} {a b : Nat} {pa : PreAccount}
    (hne : b ≠ a) :
    (applyPre1 db a pa).accounts b = db.accounts b := by
  rcases hs : pa.storage with - | st <;> simp only [applyPre1, hs]
  · show (if b = a then _ else db.accounts b) = db.accounts b
    rw [if_neg hne]
  · rw [foldl_ins_accounts]
    show (if b = a then _ else db.accounts b) = db.accounts b
    rw [if_neg hne]

theorem applyPre1_accounts_self {db : Backend} {a : Nat} {pa : PreAccount} :
    (applyPre1 db a pa).accounts a = some (preInfo pa) := by
  rcases hs : pa.storage with - | st <;> simp only [applyPre1, hs]
  · show (if a = a then some (preInfo pa) else _) = some (preInfo pa)
    rw [if_pos rfl]
  · rw [foldl_ins_accounts]
    show (if a = a then some (preInfo pa) else _) = some (preInfo pa)
    rw [if_pos rfl]

theorem apply_pre_frame (b : Nat) :
    ∀ (l : List (Nat × PreAccount)) (db : Backend), (∀ p ∈ l, p.1 ≠ b) →
      (∀ s, (apply_pre_state db l).storage b s = db.storage b s) ∧
      (apply_pre_state db l).cleared b = db.cleared b ∧
      (apply_pre_state db l).accounts b = db.accounts b := by
  intro l
  induction l with
  | nil => intro db _; exact ⟨fun s => rfl, rfl, rfl⟩
  | cons p l ih =>
    intro db hk
    cases p with
    | mk a pa =>
      have hab : b ≠ a := fun h => (hk (a, pa) (by simp)) h.symm
      obtain ⟨ih1, ih2, ih3⟩ := ih (applyPre1 db a pa) (fun q hq => hk q (by simp [hq]))
      refine ⟨fun s => ?_, ?_, ?_⟩
      · rw [show apply_pre_state db ((a, pa) :: l) = apply_pre_state (applyPre1 db a pa) l
          from rfl, ih1 s, applyPre1_storage_ne hab]
      · rw [show apply_pre_state db ((a, pa) :: l) = apply_pre_state (applyPre1 db a pa) l
          from rfl, ih2, applyPre1_cleared]
      · rw [show apply_pre_state db ((a, pa) :: l) = apply_pre_state (applyPre1 db a pa) l
          from rfl, ih3, applyPre1_accounts_ne hab]

theorem apply_pre_fork :
    ∀ (l : List (Nat × PreAccount)) (db : Backend),
      (apply_pre_state db l).fork = db.fork := by
  intro l
  induction l with
  | nil => intro db; rfl
  | cons p l ih =>
    intro db
    cases p with
    | mk a pa =>
      rw [show apply_pre_state db ((a, pa) :: l) = apply_pre_state (applyPre1 db a pa) l
        from rfl, ih, applyPre1_fork]

theorem apply_pre_basic_eq (db : Backend) (l1 l2 : List (Nat × PreAccount))
    (a : Nat) (pa : PreAccount) (hk : ∀ p ∈ l1 ++ l2, p.1 ≠ a) :
    (apply_pre_state db (l1 ++ (a, pa) :: l2)).basic a = some (preInfo pa) := by
  induction l1 generalizing db with
  | nil =>
    rw [List.nil_append,
      show apply_pre_state db ((a, pa) :: l2) = apply_pre_state (applyPre1 db a pa) l2
        from rfl]
    obtain ⟨-, -, f3⟩ := apply_pre_frame a l2 (applyPre1 db a pa)
      (fun q hq => hk q (by simpa using hq))
    show (apply_pre_state (applyPre1 db a pa) l2).accounts a = some (preInfo pa)
    rw [f3, applyPre1_accounts_self]
  | cons p l1 ih =>
    cases p with
    | mk b pb =>
      exact ih (applyPre1 db b pb) (fun q hq => hk q (List.mem_cons_of_mem _ hq))

/-- Counterexample to C6 as stated: `apply_pre_state` does not replace the
traced account's storage wholesale.  With a trace naming only slot 3, slot
2 still reads its forked value 7 after application, so a slot not named in
the trace does retain its forked value. -/
theorem apply_pre_state_replace_counterexample :
    Backend.sload
        (apply_pre_state
          ⟨fun _ => none, fun _ _ => none, fun _ => false, fun _ _ => 7⟩
          [(1, ⟨none, none, none, some [(3, 5)]⟩)]) 1 2 = 7 ∧
    Backend.sload
        (apply_pre_state
          ⟨fun _ => none, fun _ _ => none, fun _ => false, fun _ _ => 7⟩
          [(1, ⟨none, none, none, some [(3, 5)]⟩)]) 1 3 = 5 ∧
    Backend.sload ⟨fun _ => none, fun _ _ => none, fun _ => false, fun _ _ => 7⟩ 1 2 = 7 := by
  refine ⟨by decide, by decide, by decide⟩

/-- C6 (amended): Prestate reconstruction maps each traced account into an
override carrying the trace's code, balance and nonce (rebuilt from a
zeroed default) and writes the traced storage slots individually, with
diff semantics: slots named in the trace read the traced values, while
slots not named keep reading their pre-application (forked) values; the
storage is not replaced wholesale. -/
theorem apply_pre_state_semantics (db : Backend) (l1 l2 : List (Nat × PreAccount))
    (a : Nat) (pa : PreAccount) (hk : ∀ p ∈ l1 ++ l2, p.1 ≠ a) :
    (apply_pre_state db (l1 ++ (a, pa) :: l2)).basic a = some (preInfo pa) ∧
    (∀ sd, pa.storage = some sd →
      (∀ s, s ∉ sd.map Prod.fst →
        Backend.sload (apply_pre_state db (l1 ++ (a, pa) :: l2)) a s
          = Backend.sload db a s) ∧
      ((sd.map Prod.fst).Nodup → ∀ k v, (k, v) ∈ sd →
        Backend.sload (apply_pre_state db (l1 ++ (a, pa) :: l2)) a k = v)) ∧
    (pa.storage = none →
      ∀ s, Backend.sload (apply_pre_state db (l1 ++ (a, pa) :: l2)) a s
        = Backend.sload db a s) := by
  refine ⟨apply_pre_basic_eq db l1 l2 a pa hk, ?_⟩
  induction l1 generalizing db with
  | nil =>
    rw [List.nil_append,
      show apply_pre_state db ((a, pa) :: l2) = apply_pre_state (applyPre1 db a pa) l2
        from rfl]
    obtain ⟨f1, f2, -⟩ := apply_pre_frame a l2 (applyPre1 db a pa)
      (fun q hq => hk q (by simpa using hq))
    have hfrk := apply_pre_fork l2 (applyPre1 db a pa)
    constructor
    · intro sd hsd
      have hsto : ∀ s, (applyPre1 db a pa).storage a s
          = (sd.foldl (fun d kv => d.insert_account_storage a kv.1 kv.2)
              (db.insert_account_info a (preInfo pa))).storage a s := by
        intro s
        simp only [applyPre1, hsd]
      constructor
      · intro s hsm
        refine sload_eq_of ?_ ?_ ?_
        · rw [f1 s, hsto s, foldl_ins_storage_not_mem a sd _ s hsm]
          rfl
        · rw [f2, applyPre1_cleared]
        · rw [hfrk, applyPre1_fork]
      · intro hn k v hm
        refine sload_of_some ?_
        rw [f1 k, hsto k]
        exact foldl_ins_storage_mem a sd _ k v hn hm
    · intro hsd s
      refine sload_eq_of ?_ ?_ ?_
      · rw [f1 s]
        simp only [applyPre1, hsd]
        rfl
      · rw [f2, applyPre1_cleared]
      · rw [hfrk, applyPre1_fork]
  | cons p l1 ih =>
    cases p with
    | mk b pb =>
      have hba : b ≠ a := hk (b, pb) (by simp)
      have hkd : ∀ p ∈ l1 ++ l2, p.1 ≠ a := fun q hq => hk q (List.mem_cons_of_mem _ hq)
      have hres : apply_pre_state db (((b, pb) :: l1) ++ (a, pa) :: l2)
          = apply_pre_state (applyPre1 db b pb) (l1 ++ (a, pa) :: l2) := rfl
      have hstep : ∀ s, Backend.sload (applyPre1 db b pb) a s = Backend.sload db a s := by
        intro s
        refine sload_eq_of (applyPre1_storage_ne hba.symm s) ?_ ?_
        · rw [applyPre1_cleared]
        · rw [applyPre1_fork]
      obtain ⟨ihd, ihn⟩ := ih (applyPre1 db b pb) hkd
      constructor
      · intro sd hsd
        obtain ⟨u1, u2⟩ := ihd sd hsd
        constructor
        · intro s hsm
          rw [hres, u1 s hsm, hstep s]
        · intro hn k v hm
          rw [hres]
          exact u2 hn k v hm
      · intro hsd s
        rw [hres, ihn hsd s, hstep s]

/-- Witness for the amended C6 at a concrete input: with a trace carrying
slot 2 value 9 for account 1 over a backend whose forked storage reads 3
everywhere, slot 5 still reads 3, slot 2 reads 9, and the rebuilt basic
info is the trace-derived one. -/
theorem apply_pre_state_semantics_witness :
    (apply_pre_state ⟨fun _ => none, fun _ _ => none, fun _ => false, fun _ _ => 3⟩
        [(1, ⟨none, none, none, some [(2, 9)]⟩)]).basic 1
      = some (preInfo ⟨none, none, none, some [(2, 9)]⟩) ∧
    Backend.sload
        (apply_pre_state ⟨fun _ => none, fun _ _ => none, fun _ => false, fun _ _ => 3⟩
          [(1, ⟨none, none, none, some [(2, 9)]⟩)]) 1 5 = 3 ∧
    Backend.sload
        (apply_pre_state ⟨fun _ => none, fun _ _ => none, fun _ => false, fun _ _ => 3⟩
          [(1, ⟨none, none, none, some [(2, 9)]⟩)]) 1 2 = 9 := by
  have h := apply_pre_state_semantics
    ⟨fun _ => none, fun _ _ => none, fun _ => false, fun _ _ => 3⟩
    [] [] 1 ⟨none, none, none, some [(2, 9)]⟩ (by simp)
  obtain ⟨hb, hd, -⟩ := h
  obtain ⟨u1, u2⟩ := hd [(2, 9)] rfl
  simp only [List.nil_append] at hb u1 u2
  refine ⟨hb, ?_, u2 (by decide) 2 9 (by decide)⟩
  rw [u1 5 (by decide)]
  rfl

/-- C9: in Prestate reconstruction each traced account's info is rebuilt
from the default (zeroed) `AccountInfo`, not from the backend's forked
info: whatever the backend held before, after `apply_pre_state` the
account's basic record is the trace-derived one, and any of nonce, code
or balance absent from the trace reads zero or empty; the code hash is
never recomputed and stays the default empty-code hash. -/
theorem apply_pre_state_default_rebuild (db : Backend) (l1 l2 : List (Nat × PreAccount))
    (a : Nat) (pa : PreAccount) (hk : ∀ p ∈ l1 ++ l2, p.1 ≠ a) :
    (apply_pre_state db (l1 ++ (a, pa) :: l2)).basic a = some (preInfo pa) ∧
    (pa.nonce = none → (preInfo pa).nonce = 0) ∧
    (pa.code = none → (preInfo pa).code = some []) ∧
    (pa.balance = none → (preInfo pa).balance = 0) ∧
    (preInfo pa).codeHash = keccakEmpty := by
  refine ⟨apply_pre_basic_eq db l1 l2 a pa hk, ?_, ?_, ?_, ?_⟩ <;>
    rcases hn : pa.nonce with - | n <;>
    rcases hc : pa.code with - | c <;>
    rcases hb : pa.balance with - | b <;>
    simp [preInfo, hn, hc, hb, defaultInfo]

/-- Witness for C9 at a concrete input: the backend holds a non-zero
account at address 1, the trace names address 1 with only a balance; the
rebuilt info has that balance but zero nonce, empty code and the default
code hash, losing the forked values. -/
theorem apply_pre_state_default_rebuild_witness :
    (apply_pre_state
        ⟨fun x => if x = 1 then some ⟨44, 55, 66, some [9]⟩ else none,
         fun _ _ => none, fun _ => false, fun _ _ => 0⟩
        [(1, ⟨none, none, some 8, none⟩)]).basic 1
      = some (preInfo ⟨none, none, some 8, none⟩) ∧
    (preInfo ⟨none, none, some 8, none⟩).nonce = 0 ∧
    (preInfo ⟨none, none, some 8, none⟩).code = some [] ∧
    (preInfo ⟨none, none, some 8, none⟩).codeHash = keccakEmpty := by
  have h := apply_pre_state_default_rebuild
    ⟨fun x => if x = 1 then some ⟨44, 55, 66, some [9]⟩ else none,
     fun _ _ => none, fun _ => false, fun _ _ => 0⟩
    [] [] 1 ⟨none, none, some 8, none⟩ (by simp)
  obtain ⟨hb, h1, h2, -, h4⟩ := h
  simp only [List.nil_append] at hb
  exact ⟨hb, h1 rfl, h2 rfl, h4⟩

theorem c3_aux (txs : List Tx) :
    ∀ (base : Nat) (env : Env) (i : Nat), base ≤ i →
      (∀ k (hk : k < txs.length), (txs.get ⟨k, hk⟩).index = base + k) →
      prepare_fork_state_plain env txs i = replayAll env (txs.take (i - base)) := by
  induction txs with
  | nil => intro base env i _ _; simp [prepare_fork_state_plain, replayAll]
  | cons t rest ih =>
    intro base env i hb hidx
    have ht0 : t.index = base := by
      have h := hidx 0 (by simp)
      simpa using h
    by_cases hbi : base = i
    · subst hbi
      show prepare_fork_state_plain env (t :: rest) base = _
      unfold prepare_fork_state_plain
      rw [if_pos ht0, Nat.sub_self, List.take_zero]
      rfl
    · have hlt : base < i := lt_of_le_of_ne hb hbi
      have hne : t.index ≠ i := by rw [ht0]; exact hbi
      have hsub : i - base = (i - (base + 1)) + 1 := by omega
      have hidx2 : ∀ k (hk : k < rest.length), (rest.get ⟨k, hk⟩).index = (base + 1) + k := by
        intro k hk
        have h := hidx (k + 1) (by simpa using Nat.succ_lt_succ hk)
        rw [List.get_cons_succ] at h
        rw [h]
        omega
      show prepare_fork_state_plain env (t :: rest) i = _
      unfold prepare_fork_state_plain
      rw [if_neg hne, hsub, List.take_succ_cons]
      show _ = replayAll env (t :: rest.take (i - (base + 1)))
      unfold replayAll
      rw [ih (base + 1) (configure_tx_env env t) i (by omega) hidx2]

theorem c3_aux2 (txs : List Tx) :
    ∀ (base : Nat) (env : Env) (i : Nat), base ≤ i →
      (∀ k (hk : k < txs.length), (txs.get ⟨k, hk⟩).index = base + k) →
      ∀ ev ∈ prepare_fork_state_plain env txs i, ev.tx.index < i := by
  induction txs with
  | nil =>
    intro base env i _ _ ev hev
    simp [prepare_fork_state_plain] at hev
  | cons t rest ih =>
    intro base env i hb hidx ev hev
    have ht0 : t.index = base := by
      have h := hidx 0 (by simp)
      simpa using h
    by_cases hti : t.index = i
    · unfold prepare_fork_state_plain at hev
      rw [if_pos hti] at hev
      simp at hev
    · have hlt : base < i := by
        rcases Nat.lt_or_ge base i with h | h
        · exact h
        · exact absurd (Nat.le_antisymm hb h) (fun he => hti (by rw [ht0, he]))
      unfold prepare_fork_state_plain at hev
      rw [if_neg hti] at hev
      rcases List.mem_cons.mp hev with rfl | hmem
      · have : (match t.toAddr with
            | some _ => ExecEvent.call (configure_tx_env env t) t
            | none => ExecEvent.create (configure_tx_env env t) t).tx = t := by
          cases t.toAddr <;> rfl
        rw [this, ht0]
        exact hlt
      · have hidx2 : ∀ k (hk : k < rest.length),
            (rest.get ⟨k, hk⟩).index = (base + 1) + k := by
          intro k hk
          have h := hidx (k + 1) (by simpa using Nat.succ_lt_succ hk)
          rw [List.get_cons_succ] at h
          rw [h]
          omega
        exact ih (base + 1) (configure_tx_env env t) i (by omega) hidx2 ev hmem

/-- C3: the plain replay loop enumerates the block's transactions in
original order and executes exactly those before the target index: when
the list carries its transactions at their indices, the recorded executor
invocations are exactly the replay of the first `i` transactions (each
environment configured from its transaction, dispatched as call or
creation by its recipient field, stopping at the transaction whose index
equals the target), and no executed transaction has index at or beyond
the target. -/
theorem prepare_fork_state_plain_spec (env : Env) (txs : List Tx) (i : Nat)
    (hidx : ∀ k (hk : k < txs.length), (txs.get ⟨k, hk⟩).index = k) :
    prepare_fork_state_plain env txs i = replayAll env (txs.take i) ∧
    ∀ ev ∈ prepare_fork_state_plain env txs i, ev.tx.index < i := by
  have hidx0 : ∀ k (hk : k < txs.length), (txs.get ⟨k, hk⟩).index = 0 + k := by
    intro k hk
    rw [hidx k hk]
    omega
  constructor
  · have h := c3_aux txs 0 env i (Nat.zero_le i) hidx0
    simpa using h
  · exact c3_aux2 txs 0 env i (Nat.zero_le i) hidx0

/-- Witness for C3 at a concrete block of two transactions with target
index 1: the loop replays exactly the first transaction. -/
theorem prepare_fork_state_plain_spec_witness :
    prepare_fork_state_plain sampleEnv [sampleCallTx, sampleCreateTx] 1
      = replayAll sampleEnv ([sampleCallTx, sampleCreateTx].take 1) :=
  (prepare_fork_state_plain_spec sampleEnv [sampleCallTx, sampleCreateTx] 1
    (by
      intro k hk
      match k with
      | 0 => rfl
      | 1 => rfl
      | n + 2 => exact absurd hk (by simp))).1

/-- C4: the execution dispatcher executes exactly one of two paths — a
transaction with a recipient runs call execution and a transaction with
no recipient runs creation execution, both against the final relaxed
environment — and in both cases the value consumed downstream is the
decoding of the ordered logs emitted by the path that ran. -/
theorem simulate_core_dispatch (callExec : Env → RawCallResult)
    (deployExec : Env → DeployResult) (decode : List Nat → List Nat)
    (env : Env) (tx : Tx) :
    ((∃ a, tx.toAddr = some a) →
      simulate_core callExec deployExec decode env tx
        = decode (callExec (final_env env tx)).logs) ∧
    (tx.toAddr = none →
      simulate_core callExec deployExec decode env tx
        = decode (deployExec (final_env env tx)).logs) := by
  constructor
  · rintro ⟨a, ha⟩
    simp [simulate_core, relax_tx, ha]
  · intro ha
    simp [simulate_core, relax_tx, ha]

/-- Witness for C4: with constant executors, the call transaction takes
the call path and the creation transaction takes the creation path. -/
theorem simulate_core_dispatch_witness :
    simulate_core (fun _ => ⟨[5]⟩) (fun _ => ⟨[6]⟩) (fun l => l) sampleEnv sampleCallTx
      = (fun l => l) ((fun _ => (⟨[5]⟩ : RawCallResult))
          (final_env sampleEnv sampleCallTx)).logs ∧
    simulate_core (fun _ => ⟨[5]⟩) (fun _ => ⟨[6]⟩) (fun l => l) sampleEnv sampleCreateTx
      = (fun l => l) ((fun _ => (⟨[6]⟩ : DeployResult))
          (final_env sampleEnv sampleCreateTx)).logs :=
  ⟨(simulate_core_dispatch (fun _ => ⟨[5]⟩) (fun _ => ⟨[6]⟩) (fun l => l)
      sampleEnv sampleCallTx).1 ⟨20, rfl⟩,
   (simulate_core_dispatch (fun _ => ⟨[5]⟩) (fun _ => ⟨[6]⟩) (fun l => l)
      sampleEnv sampleCreateTx).2 rfl⟩

/-- C5: before the final execution the working transaction's gas price,
max priority fee per gas and max fee per gas are each set to 1, the
transaction gas limit in the execution environment is the transaction's
gas limit multiplied by 2000, and the block gas limit in the environment
is the containing block's gas limit multiplied by 2000 (both under the
no-64-bit-overflow side conditions; the source computes them in u64). -/
theorem simulate_fee_relaxation (env : Env) (block : BlockData) (tx : Tx) (bn : Nat)
    (h1 : tx.gas * 2000 < u64size) (h2 : block.gas_limit * 2000 < u64size) :
    (relax_tx tx).gas_price = some 1 ∧
    (relax_tx tx).max_priority_fee_per_gas = some 1 ∧
    (relax_tx tx).max_fee_per_gas = some 1 ∧
    (final_env (configure_env_for_executor env bn block) tx).tx.gas_limit
      = tx.gas * 2000 ∧
    (final_env (configure_env_for_executor env bn block) tx).block.gas_limit
      = block.gas_limit * 2000 := by
  have hu : u64size = 18446744073709551616 := rfl
  have hg : tx.gas < u64size := by omega
  have hb : block.gas_limit < u64size := by omega
  refine ⟨rfl, rfl, rfl, ?_, ?_⟩
  · show (tx.gas % u64size) * 2000 % u64size = tx.gas * 2000
    rw [Nat.mod_eq_of_lt hg, Nat.mod_eq_of_lt h1]
  · show (block.gas_limit % u64size) * 2000 % u64size = block.gas_limit * 2000
    rw [Nat.mod_eq_of_lt hb, Nat.mod_eq_of_lt h2]

/-- Witness for C5 at concrete inputs. -/
theorem simulate_fee_relaxation_witness :
    (relax_tx sampleCallTx).gas_price = some 1 ∧
    (relax_tx sampleCallTx).max_priority_fee_per_gas = some 1 ∧
    (relax_tx sampleCallTx).max_fee_per_gas = some 1 ∧
    (final_env (configure_env_for_executor sampleEnv 12 sampleBlock) sampleCallTx).tx.gas_limit
      = sampleCallTx.gas * 2000 ∧
    (final_env (configure_env_for_executor sampleEnv 12 sampleBlock) sampleCallTx).block.gas_limit
      = sampleBlock.gas_limit * 2000 :=
  simulate_fee_relaxation sampleEnv sampleBlock sampleCallTx 12
    (by norm_num [u64size, sampleCallTx]) (by norm_num [u64size, sampleBlock])

end Log3
